import Mathlib

/-! Verification of the shopping-cart reconciliation core of
`src/shopping-cart/index.tsx`.

The widget's state values are JSON-shaped JavaScript values (the persisted
cart document, the external tool-output payload, cart items).  We embed them
as the inductive type `Value`; a JavaScript object is a finite list of
key/value fields in insertion order (real JS objects never repeat a key, so
well-formedness hypotheses below occasionally require key lists to be
duplicate-free).  JS numbers are embedded as `Int`: every quantity and delta
handled by the source is integral.
-/

namespace ShoppingCart

/-- A JSON-shaped JavaScript value. -/
inductive Value : Type where
  | null : Value
  | bool : Bool → Value
  | num : Int → Value
  | str : String → Value
  | arr : List Value → Value
  | obj : List (String × Value) → Value

/-- A JavaScript object: fields in insertion order. -/
abbrev Obj := List (String × Value)

/-- Property access `o[k]`: the value of the first field named `k`. -/
def lookupFirst {α : Type} : List (String × α) → String → Option α
  | [], _ => none
  | (k, v) :: rest, key => if k = key then some v else lookupFirst rest key

/-- The keys of an object (or of a string-keyed map), in order. -/
def keysOf {α : Type} (o : List (String × α)) : List String := o.map Prod.fst

/-- JS object spread `{ ...a, ...b }`: the fields of `a` in their original
positions with values overridden by `b` where `b` has the same key, followed
by the fields of `b` whose keys do not occur in `a`. -/
def spread (a b : Obj) : Obj :=
  a.map (fun p => (p.1, (lookupFirst b p.1).getD p.2))
    ++ b.filter (fun p => (lookupFirst a p.1).isNone)

/-- JS shallow copy `{ ...v }` of an item value.  For an object it is the
field list itself; `null`, numbers and booleans contribute no fields.
(Strings and arrays would contribute index fields in JS; such values never
occur as cart items under the `CartItem` contract.) -/
def fieldsOf : Value → Obj
  | .obj fs => fs
  | _ => []

/-- The truthiness gate `if (item?.name)` of the merge loops, under the
`CartItem` contract `name : string`: a usable name is a non-empty string
field `name`; any other shape of item is skipped. -/
def nameOf : Value → Option String
  | .obj fs =>
    match lookupFirst fs "name" with
    | some (.str s) => if s = "" then none else some s
    | _ => none
  | _ => none

/-- The insertion-ordered `Map<string, CartItem>` of the merge. -/
abbrev ItemMap := List (String × Obj)

/-- The `Map.get` operation. -/
def getM (m : ItemMap) (k : String) : Option Obj := lookupFirst m k

/-- The `Map.set` operation: an existing key keeps its position and gets the new value; a
new key is appended.  (A `Map` never holds a key twice, so replacing the
first binding of `k` is the replacement of its only binding.) -/
def setM (m : ItemMap) (k : String) (v : Obj) : ItemMap :=
  match m with
  | [] => [(k, v)]
  | (k1, v1) :: rest => if k1 = k then (k, v) :: rest else (k1, v1) :: setM rest k v

/-- The seeding loop of the merge (index.tsx lines 138-142):
`for (const item of baseItems) if (item?.name) itemsByName.set(item.name, item)`. -/
def seedMap (m : ItemMap) : List Value → ItemMap
  | [] => m
  | item :: rest =>
    match nameOf item with
    | some n => seedMap (setM m n (fieldsOf item)) rest
    | none => seedMap m rest

/-- The incoming loop of the merge (index.tsx lines 144-148):
`for (const item of incomingItems) if (item?.name)
  itemsByName.set(item.name, { ...itemsByName.get(item.name), ...item })`.
(`{ ...undefined, ...item }` is the plain copy of `item`, which
`spread [] (fieldsOf item)` computes.) -/
def mergeIncoming (m : ItemMap) : List Value → ItemMap
  | [] => m
  | item :: rest =>
    match nameOf item with
    | some n =>
        mergeIncoming (setM m n (spread ((getM m n).getD []) (fieldsOf item))) rest
    | none => mergeIncoming m rest

/-- The read `Array.isArray(state.items) ? state.items : []`. -/
def itemsOf (o : Obj) : List Value :=
  match lookupFirst o "items" with
  | some (.arr xs) => xs
  | _ => []

/-- The update `{ ...o, k: v }`. -/
def setField (o : Obj) (k : String) (v : Value) : Obj := spread o [(k, v)]

/-- The delta merge of the `useEffect` (index.tsx lines 131-151): seed the
name-keyed map with the base items, fold the incoming items over it, and
replace the `items` field of the base state with the map's values. -/
def reconcile (base : Obj) (incoming : List Value) : Obj :=
  let m := mergeIncoming (seedMap [] (itemsOf base)) incoming
  setField base "items" (.arr (m.map (fun p => Value.obj p.2)))

/-- Extraction of `incomingItems` from `toolOutput` (index.tsx lines
124-129): the `items` field when it is an array, `[]` otherwise. -/
def extractItems : Value → List Value
  | .obj fs =>
    match lookupFirst fs "items" with
    | some (.arr xs) => xs
    | _ => []
  | _ => []

/-- The read `(current.quantity ?? 0)` under the `CartItem` contract
`quantity : number`: a numeric `quantity` field, defaulting to `0` when the
field is absent or `null`. -/
def currentQty (fs : Obj) : Int :=
  match lookupFirst fs "quantity" with
  | some (.num q) => q
  | _ => 0

/-- The `findIndex` predicate `item.name === name` (strict equality: only a
string field `name` can equal the string `n`). -/
def isNamed (fs : Obj) (n : String) : Bool :=
  match lookupFirst fs "name" with
  | some (.str s) => s = n
  | _ => false

/-- The `findIndex` / `splice` / index-assignment core of `adjustQuantity`
(index.tsx lines 77-91), as first-match recursion: `none` when no item
matches; otherwise the list with the first matching item removed (when the
next quantity is `0`) or replaced by `{ ...current, quantity: nextQuantity }`. -/
def adjustItems (n : String) (d : Int) : List Obj → Option (List Obj)
  | [] => none
  | fs :: rest =>
    if isNamed fs n then
      if max 0 (currentQty fs + d) = 0 then some rest
      else some (setField fs "quantity" (.num (max 0 (currentQty fs + d))) :: rest)
    else
      match adjustItems n d rest with
      | some rest2 => some (fs :: rest2)
      | none => none

/-- The function `adjustQuantity` (index.tsx lines 65-96).  `!name || delta === 0`
returns without touching the state; the updater copies the items
(`items.map((item) => ({ ...item }))`), finds the first item named `n`
(returning the base state unchanged when there is none), and otherwise
writes back `{ ...baseState, items }` with the adjusted list. -/
def adjustQuantity (n : String) (d : Int) (prev : Obj) : Obj :=
  if n = "" ∨ d = 0 then prev
  else
    match adjustItems n d ((itemsOf prev).map fieldsOf) with
    | none => prev
    | some items2 => setField prev "items" (.arr (items2.map Value.obj))

/-- Whether an item carries a stored `quantity` field equal to `0`. -/
def hasZeroQtyF (fs : Obj) : Bool :=
  match lookupFirst fs "quantity" with
  | some (.num q) => q == 0
  | _ => false

/-- Whether an item value carries a stored `quantity` field equal to `0`. -/
def hasZeroQty (v : Value) : Bool := hasZeroQtyF (fieldsOf v)

/-- The names carried by a list of item values, in encounter order. -/
def namesOf (vs : List Value) : List String := vs.filterMap nameOf

/-- The field lists of the items of `vs` that carry the name `n`, in order. -/
def namedFields (vs : List Value) (n : String) : List Obj :=
  vs.filterMap (fun v => if nameOf v = some n then some (fieldsOf v) else none)

/-- Fold a list of names onto a key list the way `Map.set` grows the key
set: a known name is ignored, a new name is appended. -/
def addNew (ks : List String) (ns : List String) : List String :=
  ns.foldl (fun acc n => if n ∈ acc then acc else acc ++ [n]) ks

/-- The field value a left-to-right spread chain of `ds` assigns to key `k`
(the last list element carrying `k` wins). -/
def chainLookup (ds : List Obj) (k : String) : Option Value :=
  ds.foldl (fun acc fs => (lookupFirst fs k).or acc) none

mutual

/-- The `JSON.stringify` fingerprint on embedded values, used only as the change-detection
fingerprint (index.tsx lines 105-112), written mutually with the
serializers of array elements and object fields.  Escaping of special
characters inside strings is elided: the guard only ever compares
fingerprints of whole payloads for equality. -/
def serialize : Value → String
  | .null => "null"
  | .bool b => cond b "true" "false"
  | .num n => toString n
  | .str s => "\x22" ++ s ++ "\x22"
  | .arr xs => "[" ++ serializeElems xs ++ "]"
  | .obj fs => "\x7b" ++ serializeFields fs ++ "\x7d"

/-- Comma-separated serialization of the elements of a JSON array. -/
def serializeElems : List Value → String
  | [] => ""
  | [v] => serialize v
  | v :: rest => serialize v ++ "," ++ serializeElems rest

/-- Comma-separated serialization of the fields of a JSON object. -/
def serializeFields : List (String × Value) → String
  | [] => ""
  | [(k, v)] => "\x22" ++ k ++ "\x22:" ++ serialize v
  | (k, v) :: rest =>
      "\x22" ++ k ++ "\x22:" ++ serialize v ++ "," ++ serializeFields rest

end

/-- Modelled from the spec: the host state-exchange channel (spec section 6)
and the effect scheduling of `useOpenAiGlobal` / `useWidgetState`, whose
sources are not part of the reconciliation core.  Per spec section 5 the
system is single-threaded and notification-driven, so we model it as one
mutable slot holding the persisted cart together with the remembered
"last processed delta" fingerprint of section 4.3. -/
structure HostState where
  lastRef : String
  cart : Obj

/-- The ref `useRef<string>("__tool_output_unset__")` (index.tsx line 98): the
sentinel fingerprint before any payload has been processed. -/
def initialLastRef : String := "__tool_output_unset__"

/-- One run of the delta-merge effect (index.tsx lines 100-157) on a
notification carrying `toolOutput` (`none` embeds `toolOutput == null`).
Returns the next host state and whether a write to the persisted cart was
issued.  A `null` payload returns early; an unchanged fingerprint skips
(no merge, no write); otherwise the fingerprint is remembered and the merge
of the current persisted cart with the payload's items is written through. -/
def processDelta (st : HostState) (toolOutput : Option Value) : HostState × Bool :=
  match toolOutput with
  | none => (st, false)
  | some v =>
    let s := serialize v
    if s = st.lastRef then (st, false)
    else ({ lastRef := s, cart := reconcile st.cart (extractItems v) }, true)

/-- Modelled from the spec: the two notification sources of spec section 2 —
an external delta delivery and a user-driven quantity adjustment. -/
inductive Event : Type where
  | delta (payload : Option Value) : Event
  | userAdjust (n : String) (d : Int) : Event

/-- Modelled from the spec: how one event transforms the host state.  A
delta delivery runs the merge effect; a user adjustment writes
`adjustQuantity`'s result through the persisted-cart slot (spec section
4.2), leaving the delta fingerprint untouched. -/
def stepEvent (st : HostState) : Event → HostState
  | .delta p => (processDelta st p).1
  | .userAdjust n d => { st with cart := adjustQuantity n d st.cart }

/-- A whole session: the fold of `stepEvent` over a list of events. -/
def runEvents (st : HostState) (es : List Event) : HostState :=
  es.foldl stepEvent st

/-- The value stored at one map key after a run of incoming merges: each
incoming field list named for that key is spread onto the accumulated one
(`{ ...undefined, ...item }` when the key was absent). -/
def applyChain (s : Option Obj) (ds : List Obj) : Option Obj :=
  ds.foldl (fun acc fs => some (spread (acc.getD []) fs)) s

/-- Invariant of the name-keyed `Map` of the merge: keys are pairwise
distinct, and every stored item carries its key as a non-empty string
`name` field. -/
def MapInv (m : ItemMap) : Prop :=
  (keysOf m).Nodup ∧ ∀ p ∈ m, p.1 ≠ "" ∧ lookupFirst p.2 "name" = some (.str p.1)

/-! Lemmas on lookup, spread and the insertion-ordered map. -/

theorem lookupFirst_append {α : Type} (l1 l2 : List (String × α)) (k : String) :
    lookupFirst (l1 ++ l2) k = (lookupFirst l1 k).or (lookupFirst l2 k) := by
  induction l1 with
  | nil => simp [lookupFirst]
  | cons p rest ih =>
    obtain ⟨k1, v1⟩ := p
    by_cases h : k1 = k <;> simp [lookupFirst, h, ih]

theorem lookupFirst_eq_none_iff {α : Type} (l : List (String × α)) (k : String) :
    lookupFirst l k = none ↔ k ∉ keysOf l := by
  induction l with
  | nil => simp [lookupFirst, keysOf]
  | cons p rest ih =>
    obtain ⟨k1, v1⟩ := p
    by_cases h : k1 = k
    · subst h
      simp [lookupFirst, keysOf]
    · have hne : ¬ k = k1 := fun he => h he.symm
      simp [lookupFirst, keysOf, h, hne, ih]

theorem lookupFirst_isSome_iff {α : Type} (l : List (String × α)) (k : String) :
    (lookupFirst l k).isSome = true ↔ k ∈ keysOf l := by
  rw [Option.isSome_iff_ne_none, Ne, lookupFirst_eq_none_iff, not_not]

theorem lookupFirst_spread_map (a b : Obj) (k : String) :
    lookupFirst (a.map (fun p => (p.1, (lookupFirst b p.1).getD p.2))) k =
      (lookupFirst a k).map (fun v => (lookupFirst b k).getD v) := by
  induction a with
  | nil => simp [lookupFirst]
  | cons p rest ih =>
    obtain ⟨k1, v1⟩ := p
    by_cases h : k1 = k <;> simp [lookupFirst, h, ih]

theorem lookupFirst_spread_filter (a b : Obj) (k : String) :
    lookupFirst (b.filter (fun p => (lookupFirst a p.1).isNone)) k =
      if (lookupFirst a k).isNone then lookupFirst b k else none := by
  induction b with
  | nil => simp [lookupFirst]
  | cons q rest ih =>
    obtain ⟨k1, v1⟩ := q
    by_cases h : k1 = k
    · subst h
      by_cases hp : (lookupFirst a k1).isNone <;> simp [lookupFirst, hp, ih]
    · by_cases hp : (lookupFirst a k1).isNone <;> simp [lookupFirst, h, hp, ih]

theorem lookupFirst_spread (a b : Obj) (k : String) :
    lookupFirst (spread a b) k = (lookupFirst b k).or (lookupFirst a k) := by
  rw [spread, lookupFirst_append, lookupFirst_spread_map, lookupFirst_spread_filter]
  cases ha : lookupFirst a k with
  | some v =>
    simp only [ha, Option.isNone_some, Bool.false_eq_true, if_false,
      Option.map_some, Option.or_none]
    cases lookupFirst b k <;> simp
  | none =>
    simp only [ha, Option.isNone_none, if_true, Option.map_none, Option.or_none]
    cases lookupFirst b k <;> simp

theorem keysOf_spread (a b : Obj) :
    keysOf (spread a b) =
      keysOf a ++ keysOf (b.filter (fun p => (lookupFirst a p.1).isNone)) := by
  simp [spread, keysOf]

theorem mem_keysOf_spread (a b : Obj) (k : String) :
    k ∈ keysOf (spread a b) ↔ k ∈ keysOf a ∨ k ∈ keysOf b := by
  rw [keysOf_spread]
  constructor
  · intro h
    rcases List.mem_append.1 h with h | h
    · exact Or.inl h
    · rcases List.mem_map.1 h with ⟨p, hp, hk⟩
      exact Or.inr (hk ▸ List.mem_map.2 ⟨p, (List.mem_filter.1 hp).1, rfl⟩)
  · intro h
    rcases h with h | h
    · exact List.mem_append.2 (Or.inl h)
    · by_cases hka : k ∈ keysOf a
      · exact List.mem_append.2 (Or.inl hka)
      · refine List.mem_append.2 (Or.inr ?_)
        rcases List.mem_map.1 h with ⟨p, hp, hk⟩
        refine List.mem_map.2 ⟨p, List.mem_filter.2 ⟨hp, ?_⟩, hk⟩
        have : lookupFirst a p.1 = none :=
          (lookupFirst_eq_none_iff a p.1).2 (hk ▸ hka)
        simp [this]

theorem nodup_keysOf_spread {a b : Obj} (ha : (keysOf a).Nodup)
    (hb : (keysOf b).Nodup) : (keysOf (spread a b)).Nodup := by
  rw [keysOf_spread]
  refine List.Nodup.append ha ?_ ?_
  · exact hb.sublist (List.Sublist.map _ (List.filter_sublist b))
  · intro k hk1 hk2
    rcases List.mem_map.1 hk2 with ⟨p, hp, hkp⟩
    have := (List.mem_filter.1 hp).2
    rw [hkp, Option.isNone_iff_eq_none, lookupFirst_eq_none_iff] at this
    exact this hk1

theorem spread_nil_left (b : Obj) : spread [] b = b := by
  simp [spread, lookupFirst]

theorem lookupFirst_eq_of_mem_nodup {α : Type} {y : List (String × α)}
    {k : String} {v : α} (hnd : (keysOf y).Nodup) (hm : (k, v) ∈ y) :
    lookupFirst y k = some v := by
  induction y with
  | nil => cases hm
  | cons p rest ih =>
    obtain ⟨k1, v1⟩ := p
    rcases List.mem_cons.1 hm with h | h
    · cases h
      simp [lookupFirst]
    · have hk : k1 ≠ k := by
        intro he
        subst he
        exact (List.nodup_cons.1 hnd).1
          (List.mem_map.2 ⟨(k1, v), h, rfl⟩)
      simp [lookupFirst, hk]
      exact ih (List.nodup_cons.1 hnd).2 h

theorem getM_setM (m : ItemMap) (k : String) (v : Obj) (k2 : String) :
    getM (setM m k v) k2 = if k2 = k then some v else getM m k2 := by
  unfold getM
  induction m with
  | nil =>
    by_cases h : k2 = k
    · subst h; simp [setM, lookupFirst]
    · have hne : ¬ k = k2 := fun he => h he.symm
      simp [setM, lookupFirst, h, hne]
  | cons p rest ih =>
    obtain ⟨k1, v1⟩ := p
    by_cases h1 : k1 = k
    · subst h1
      by_cases h2 : k2 = k1
      · subst h2; simp [setM, lookupFirst]
      · have hne : ¬ k1 = k2 := fun he => h2 he.symm
        simp [setM, lookupFirst, h2, hne]
    · by_cases h2 : k1 = k2
      · subst h2
        have hne : ¬ k1 = k := h1
        simp [setM, lookupFirst, hne, fun he : k1 = k => h1 he]
      · simp [setM, lookupFirst, h1, h2, ih]

theorem keysOf_setM (m : ItemMap) (k : String) (v : Obj) :
    keysOf (setM m k v) = if k ∈ keysOf m then keysOf m else keysOf m ++ [k] := by
  induction m with
  | nil => simp [setM, keysOf]
  | cons p rest ih =>
    obtain ⟨k1, v1⟩ := p
    by_cases h1 : k1 = k
    · subst h1; simp [setM, keysOf]
    · have hne : ¬ k = k1 := fun he => h1 he.symm
      by_cases h2 : k ∈ keysOf rest
      · have hmem : k ∈ keysOf ((k1, v1) :: rest) := by
          simp only [keysOf, List.map_cons, List.mem_cons]
          exact Or.inr h2
        rw [if_pos hmem]
        simp only [setM, if_neg h1, keysOf, List.map_cons]
        simp only [keysOf] at ih h2
        rw [ih, if_pos h2]
      · have hmem : k ∉ keysOf ((k1, v1) :: rest) := by
          simp only [keysOf, List.map_cons, List.mem_cons]
          rintro (h | h)
          exacts [hne h, h2 h]
        rw [if_neg hmem]
        simp only [setM, if_neg h1, keysOf, List.map_cons]
        simp only [keysOf] at ih h2
        rw [ih, if_neg h2]
        simp

theorem mem_keysOf_setM (m : ItemMap) (k : String) (v : Obj) (n : String) :
    n ∈ keysOf (setM m k v) ↔ n ∈ keysOf m ∨ n = k := by
  rw [keysOf_setM]
  by_cases h : k ∈ keysOf m
  · simp only [if_pos h]
    constructor
    · exact Or.inl
    · rintro (hn | hn)
      · exact hn
      · exact hn ▸ h
  · simp [if_neg h]

theorem nodup_keysOf_setM {m : ItemMap} (k : String) (v : Obj)
    (h : (keysOf m).Nodup) : (keysOf (setM m k v)).Nodup := by
  rw [keysOf_setM]
  by_cases hk : k ∈ keysOf m
  · simpa [hk] using h
  · simp only [if_neg hk]
    refine List.Nodup.append h (List.nodup_singleton k) ?_
    intro n hn hk2
    rcases List.mem_singleton.1 hk2 with rfl
    exact hk hn

theorem mem_setM {m : ItemMap} {k : String} {v : Obj} {p : String × Obj}
    (hp : p ∈ setM m k v) : p ∈ m ∨ p = (k, v) := by
  induction m with
  | nil => simpa [setM] using hp
  | cons q rest ih =>
    obtain ⟨k1, v1⟩ := q
    by_cases h1 : k1 = k
    · subst h1
      simp only [setM, if_pos rfl] at hp
      rcases List.mem_cons.1 hp with h | h
      · exact Or.inr h
      · exact Or.inl (List.mem_cons.2 (Or.inr h))
    · simp only [setM, if_neg h1] at hp
      rcases List.mem_cons.1 hp with h | h
      · exact Or.inl (List.mem_cons.2 (Or.inl h))
      · rcases ih h with h2 | h2
        · exact Or.inl (List.mem_cons.2 (Or.inr h2))
        · exact Or.inr h2

theorem mapInv_setM {m : ItemMap} {k : String} {v : Obj} (hinv : MapInv m)
    (hk : k ≠ "") (hv : lookupFirst v "name" = some (.str k)) :
    MapInv (setM m k v) := by
  obtain ⟨hnd, hvals⟩ := hinv
  refine ⟨nodup_keysOf_setM k v hnd, ?_⟩
  intro p hp
  rcases mem_setM hp with h | h
  · exact hvals p h
  · exact h ▸ ⟨hk, hv⟩

theorem nameOf_fieldsOf {v : Value} {n : String} (h : nameOf v = some n) :
    lookupFirst (fieldsOf v) "name" = some (.str n) ∧ n ≠ "" := by
  cases v with
  | obj fs =>
    simp only [nameOf] at h
    cases hl : lookupFirst fs "name" with
    | none => rw [hl] at h; cases h
    | some w =>
      rw [hl] at h
      cases w with
      | str s =>
        by_cases hs : s = ""
        · simp [hs] at h
        · simp only [hs, if_false] at h
          cases h
          exact ⟨hl, hs⟩
      | null => cases h
      | bool b => cases h
      | num q => cases h
      | arr xs => cases h
      | obj gs => cases h
  | null => cases h
  | bool b => cases h
  | num q => cases h
  | str s => cases h
  | arr xs => cases h

theorem nameOf_obj_of_lookup {fs : Obj} {n : String}
    (hl : lookupFirst fs "name" = some (.str n)) (hn : n ≠ "") :
    nameOf (.obj fs) = some n := by
  simp [nameOf, hl, hn]

theorem mapInv_seedMap {m : ItemMap} (items : List Value) (hinv : MapInv m) :
    MapInv (seedMap m items) := by
  induction items generalizing m with
  | nil => exact hinv
  | cons item rest ih =>
    cases hn : nameOf item with
    | none => simpa [seedMap, hn] using ih hinv
    | some n =>
      obtain ⟨hl, hne⟩ := nameOf_fieldsOf hn
      simpa [seedMap, hn] using ih (mapInv_setM hinv hne hl)

theorem mapInv_mergeIncoming {m : ItemMap} (ds : List Value) (hinv : MapInv m) :
    MapInv (mergeIncoming m ds) := by
  induction ds generalizing m with
  | nil => exact hinv
  | cons item rest ih =>
    cases hn : nameOf item with
    | none => simpa [mergeIncoming, hn] using ih hinv
    | some n =>
      obtain ⟨hl, hne⟩ := nameOf_fieldsOf hn
      have hl2 : lookupFirst (spread ((getM m n).getD []) (fieldsOf item)) "name" =
          some (.str n) := by
        rw [lookupFirst_spread, hl]
        rfl
      simpa [mergeIncoming, hn] using ih (mapInv_setM hinv hne hl2)

theorem mapInv_nil : MapInv [] := by
  constructor
  · simp [keysOf]
  · intro p hp
    cases hp

theorem getLast?_cons_or {α : Type} (a : α) (l : List α) :
    (a :: l).getLast? = l.getLast?.or (some a) := by
  induction l generalizing a with
  | nil => rfl
  | cons b t ih =>
    rw [List.getLast?_cons_cons, ih b, Option.or_assoc]
    rfl

theorem getM_seedMap (m : ItemMap) (items : List Value) (n : String) :
    getM (seedMap m items) n = ((namedFields items n).getLast?).or (getM m n) := by
  induction items generalizing m with
  | nil => simp [seedMap, namedFields]
  | cons item rest ih =>
    cases hn : nameOf item with
    | none =>
      have : ¬ nameOf item = some n := by simp [hn]
      simp [seedMap, hn, namedFields, List.filterMap_cons, this, ih]
    | some n2 =>
      by_cases h : n2 = n
      · subst h
        rw [show seedMap m (item :: rest) = seedMap (setM m n2 (fieldsOf item)) rest
            from by simp [seedMap, hn]]
        rw [ih]
        rw [show namedFields (item :: rest) n2 =
            fieldsOf item :: namedFields rest n2 from by
          simp [namedFields, List.filterMap_cons, hn]]
        rw [getM_setM, if_pos rfl, getLast?_cons_or, Option.or_assoc]
        rfl
      · have hne : ¬ nameOf item = some n := by simp [hn, h]
        rw [show seedMap m (item :: rest) = seedMap (setM m n2 (fieldsOf item)) rest
            from by simp [seedMap, hn]]
        rw [ih]
        rw [show namedFields (item :: rest) n = namedFields rest n from by
          simp [namedFields, List.filterMap_cons, hne]]
        rw [getM_setM, if_neg (fun he : n = n2 => h he.symm)]

theorem getM_mergeIncoming (m : ItemMap) (ds : List Value) (n : String) :
    getM (mergeIncoming m ds) n = applyChain (getM m n) (namedFields ds n) := by
  induction ds generalizing m with
  | nil => simp [mergeIncoming, namedFields, applyChain]
  | cons item rest ih =>
    cases hn : nameOf item with
    | none =>
      have : ¬ nameOf item = some n := by simp [hn]
      simp only [mergeIncoming, hn]
      rw [ih]
      rw [show namedFields (item :: rest) n = namedFields rest n from by
        simp [namedFields, List.filterMap_cons, this]]
    | some n2 =>
      by_cases h : n2 = n
      · subst h
        simp only [mergeIncoming, hn]
        rw [ih, getM_setM]
        simp only [if_pos rfl]
        rw [show namedFields (item :: rest) n2 =
            fieldsOf item :: namedFields rest n2 from by
          simp [namedFields, List.filterMap_cons, hn]]
        simp [applyChain]
      · have hne : ¬ nameOf item = some n := by simp [hn, h]
        simp only [mergeIncoming, hn]
        rw [ih, getM_setM]
        simp only [if_neg (fun he : n = n2 => h he.symm)]
        rw [show namedFields (item :: rest) n = namedFields rest n from by
          simp [namedFields, List.filterMap_cons, hne]]

theorem keysOf_seedMap (m : ItemMap) (items : List Value) :
    keysOf (seedMap m items) = addNew (keysOf m) (namesOf items) := by
  induction items generalizing m with
  | nil => simp [seedMap, namesOf, addNew]
  | cons item rest ih =>
    cases hn : nameOf item with
    | none =>
      simp only [seedMap, hn]
      rw [ih]
      rw [show namesOf (item :: rest) = namesOf rest from by
        simp [namesOf, List.filterMap_cons, hn]]
    | some n =>
      simp only [seedMap, hn]
      rw [ih]
      rw [show namesOf (item :: rest) = n :: namesOf rest from by
        simp [namesOf, List.filterMap_cons, hn]]
      rw [keysOf_setM]
      simp only [addNew, List.foldl_cons]

theorem keysOf_mergeIncoming (m : ItemMap) (ds : List Value) :
    keysOf (mergeIncoming m ds) = addNew (keysOf m) (namesOf ds) := by
  induction ds generalizing m with
  | nil => simp [mergeIncoming, namesOf, addNew]
  | cons item rest ih =>
    cases hn : nameOf item with
    | none =>
      simp only [mergeIncoming, hn]
      rw [ih]
      rw [show namesOf (item :: rest) = namesOf rest from by
        simp [namesOf, List.filterMap_cons, hn]]
    | some n =>
      simp only [mergeIncoming, hn]
      rw [ih]
      rw [show namesOf (item :: rest) = n :: namesOf rest from by
        simp [namesOf, List.filterMap_cons, hn]]
      rw [keysOf_setM]
      simp only [addNew, List.foldl_cons]

theorem mem_addNew (ks ns : List String) (n : String) :
    n ∈ addNew ks ns ↔ n ∈ ks ∨ n ∈ ns := by
  induction ns generalizing ks with
  | nil => simp [addNew]
  | cons n2 rest ih =>
    simp only [addNew, List.foldl_cons]
    by_cases h : n2 ∈ ks
    · rw [show (if n2 ∈ ks then ks else ks ++ [n2]) = ks from if_pos h]
      rw [show List.foldl (fun acc n => if n ∈ acc then acc else acc ++ [n]) ks rest =
        addNew ks rest from rfl, ih]
      constructor
      · rintro (hn | hn)
        · exact Or.inl hn
        · exact Or.inr (List.mem_cons.2 (Or.inr hn))
      · rintro (hn | hn)
        · exact Or.inl hn
        · rcases List.mem_cons.1 hn with rfl | hn
          · exact Or.inl h
          · exact Or.inr hn
    · rw [show (if n2 ∈ ks then ks else ks ++ [n2]) = ks ++ [n2] from if_neg h]
      rw [show List.foldl (fun acc n => if n ∈ acc then acc else acc ++ [n])
        (ks ++ [n2]) rest = addNew (ks ++ [n2]) rest from rfl, ih]
      simp only [List.mem_append, List.mem_singleton, List.mem_cons]
      tauto

theorem addNew_append (ks a b : List String) :
    addNew ks (a ++ b) = addNew (addNew ks a) b := by
  simp [addNew, List.foldl_append]

theorem addNew_eq_self (ks : List String) (ns : List String)
    (h : ∀ n ∈ ns, n ∈ ks) : addNew ks ns = ns.foldl (fun acc _ => acc) ks := by
  induction ns generalizing ks with
  | nil => rfl
  | cons n rest ih =>
    simp only [addNew, List.foldl_cons, if_pos (h n (List.mem_cons_self n rest))]
    exact ih ks (fun n2 hn2 => h n2 (List.mem_cons.2 (Or.inr hn2)))

theorem addNew_of_all_mem (ks : List String) (ns : List String)
    (h : ∀ n ∈ ns, n ∈ ks) : addNew ks ns = ks := by
  rw [addNew_eq_self ks ns h]
  induction ns with
  | nil => rfl
  | cons n rest ih => simpa using ih (fun n2 hn2 => h n2 (List.mem_cons.2 (Or.inr hn2)))

theorem nodup_addNew (ks ns : List String) (h : ks.Nodup) : (addNew ks ns).Nodup := by
  induction ns generalizing ks with
  | nil => exact h
  | cons n rest ih =>
    simp only [addNew, List.foldl_cons]
    by_cases hn : n ∈ ks
    · rw [if_pos hn]
      exact ih ks h
    · rw [if_neg hn]
      refine ih (ks ++ [n]) ?_
      refine List.Nodup.append h (List.nodup_singleton n) ?_
      intro a ha ha2
      rcases List.mem_singleton.1 ha2 with rfl
      exact hn ha

theorem namesOf_mapValues {m : ItemMap}
    (hvals : ∀ p ∈ m, p.1 ≠ "" ∧ lookupFirst p.2 "name" = some (.str p.1)) :
    namesOf (m.map (fun p => Value.obj p.2)) = keysOf m := by
  induction m with
  | nil => simp [namesOf, keysOf]
  | cons p rest ih =>
    obtain ⟨k, fs⟩ := p
    obtain ⟨hk, hl⟩ := hvals (k, fs) (List.mem_cons_self _ _)
    have hname : nameOf (.obj fs) = some k := nameOf_obj_of_lookup hl hk
    simp only [List.map_cons, namesOf, List.filterMap_cons, hname, keysOf]
    rw [show List.filterMap nameOf (List.map (fun p => Value.obj p.2) rest) =
      namesOf (List.map (fun p => Value.obj p.2) rest) from rfl]
    rw [ih (fun q hq => hvals q (List.mem_cons.2 (Or.inr hq)))]
    rfl

theorem filter_mapValues_named {m : ItemMap} {n : String} {fs : Obj}
    (hnd : (keysOf m).Nodup)
    (hvals : ∀ p ∈ m, p.1 ≠ "" ∧ lookupFirst p.2 "name" = some (.str p.1))
    (hget : getM m n = some fs) :
    (m.map (fun p => Value.obj p.2)).filter
      (fun v => decide (nameOf v = some n)) = [Value.obj fs] := by
  induction m with
  | nil => cases hget
  | cons p rest ih =>
    obtain ⟨k, w⟩ := p
    obtain ⟨hk, hl⟩ := hvals (k, w) (List.mem_cons_self _ _)
    have hname : nameOf (.obj w) = some k := nameOf_obj_of_lookup hl hk
    simp only [keysOf, List.map_cons, List.nodup_cons] at hnd
    obtain ⟨hnotin, hnd2⟩ := hnd
    by_cases h : k = n
    · subst h
      have hw : w = fs := by
        unfold getM lookupFirst at hget
        simpa using hget
      subst hw
      rw [List.map_cons,
        List.filter_cons_of_pos (by simp [hname]),
        show List.filter (fun v => decide (nameOf v = some k))
            (rest.map (fun p => Value.obj p.2)) = [] from ?_]
      · rw [List.filter_eq_nil_iff]
        intro v hv
        rcases List.mem_map.1 hv with ⟨q, hq, rfl⟩
        obtain ⟨hk2, hl2⟩ := hvals q (List.mem_cons.2 (Or.inr hq))
        have hq2 : nameOf (.obj q.2) = some q.1 := nameOf_obj_of_lookup hl2 hk2
        simp only [hq2, decide_eq_true_eq, Option.some.injEq]
        intro he
        exact hnotin (he ▸ List.mem_map.2 ⟨q, hq, rfl⟩)
    · have hget2 : getM rest n = some fs := by
        unfold getM lookupFirst at hget
        simpa [h] using hget
      rw [List.map_cons, List.filter_cons_of_neg (by simp [hname, h])]
      exact ih hnd2 (fun q hq => hvals q (List.mem_cons.2 (Or.inr hq))) hget2

theorem itemMap_ext {m1 m2 : ItemMap} (hk : keysOf m1 = keysOf m2)
    (hnd : (keysOf m1).Nodup) (hget : ∀ n, getM m1 n = getM m2 n) :
    m1 = m2 := by
  induction m1 generalizing m2 with
  | nil =>
    cases m2 with
    | nil => rfl
    | cons q t2 => cases hk
  | cons p t1 ih =>
    cases m2 with
    | nil => cases hk
    | cons q t2 =>
      obtain ⟨k1, v1⟩ := p
      obtain ⟨k2, v2⟩ := q
      simp only [keysOf, List.map_cons, List.cons.injEq] at hk
      obtain ⟨hkk, hkt⟩ := hk
      subst hkk
      simp only [keysOf, List.map_cons, List.nodup_cons] at hnd
      obtain ⟨hnotin, hnd2⟩ := hnd
      have hv : v1 = v2 := by
        have h1 := hget k1
        simp only [getM, lookupFirst, if_pos rfl] at h1
        exact Option.some.inj h1
      subst hv
      have hnotin2 : k1 ∉ List.map Prod.fst t2 := hkt ▸ hnotin
      refine congrArg _ (ih ?_ ?_ ?_)
      · exact hkt
      · exact hnd2
      · intro n
        by_cases h : n = k1
        · subst h
          unfold getM
          rw [(lookupFirst_eq_none_iff t1 n).2 (by simpa [keysOf] using hnotin),
            (lookupFirst_eq_none_iff t2 n).2 (by simpa [keysOf] using hnotin2)]
        · have h1 := hget n
          simp only [getM, lookupFirst,
            if_neg (fun he : k1 = n => h he.symm)] at h1
          exact h1

theorem setM_notin {acc : ItemMap} {k : String} (v : Obj)
    (hnotin : k ∉ keysOf acc) : setM acc k v = acc ++ [(k, v)] := by
  induction acc with
  | nil => simp [setM]
  | cons q t ih =>
    obtain ⟨k1, w1⟩ := q
    simp only [keysOf, List.map_cons, List.mem_cons] at hnotin
    push_neg at hnotin
    obtain ⟨h1, h2⟩ := hnotin
    simp only [setM, if_neg (fun he : k1 = k => h1 he.symm), List.cons_append,
      List.cons.injEq, true_and]
    exact ih (by simpa [keysOf] using h2)

theorem seedMap_append_of_named :
    ∀ (m acc : ItemMap), (keysOf m).Nodup →
      (∀ p ∈ m, p.1 ≠ "" ∧ lookupFirst p.2 "name" = some (.str p.1)) →
      (∀ k ∈ keysOf m, k ∉ keysOf acc) →
      seedMap acc (m.map (fun p => Value.obj p.2)) = acc ++ m := by
  intro m
  induction m with
  | nil =>
    intro acc _ _ _
    simp [seedMap]
  | cons p rest ih =>
    intro acc hnd hvals hdisj
    obtain ⟨k, fs⟩ := p
    obtain ⟨hk, hl⟩ := hvals (k, fs) (List.mem_cons_self _ _)
    have hname : nameOf (.obj fs) = some k := nameOf_obj_of_lookup hl hk
    simp only [keysOf, List.map_cons, List.nodup_cons] at hnd
    obtain ⟨hnotin, hnd2⟩ := hnd
    simp only [List.map_cons, seedMap, hname, fieldsOf]
    rw [setM_notin fs (hdisj k (by simp [keysOf]))]
    rw [ih (acc ++ [(k, fs)]) hnd2
      (fun q hq => hvals q (List.mem_cons.2 (Or.inr hq))) ?_]
    · simp
    · intro k2 hk2
      simp only [keysOf, List.map_append, List.mem_append, List.map_cons,
        List.map_nil, List.mem_singleton]
      push_neg
      have hk2mem : k2 ∈ keysOf ((k, fs) :: rest) := by
        simp only [keysOf, List.map_cons, List.mem_cons]
        exact Or.inr hk2
      refine ⟨?_, ?_⟩
      · intro hmem
        exact hdisj k2 hk2mem (by simpa [keysOf] using hmem)
      · intro he
        subst he
        exact hnotin hk2

theorem seedMap_mapValues {m : ItemMap} (hinv : MapInv m) :
    seedMap [] (m.map (fun p => Value.obj p.2)) = m := by
  obtain ⟨hnd, hvals⟩ := hinv
  simpa using seedMap_append_of_named m [] hnd hvals (by simp [keysOf])

theorem or_getD {α : Type} (a b : Option α) (v : α) :
    (a.or b).getD v = a.getD (b.getD v) := by
  cases a <;> simp

theorem chainLookup_foldl_init (ds : List Obj) (k : String) (i : Option Value) :
    ds.foldl (fun acc fs => (lookupFirst fs k).or acc) i =
      (chainLookup ds k).or i := by
  induction ds generalizing i with
  | nil => simp [chainLookup]
  | cons d rest ih =>
    simp only [List.foldl_cons, chainLookup]
    rw [ih ((lookupFirst d k).or i), ih ((lookupFirst d k).or none),
      Option.or_assoc, Option.or_assoc, Option.none_or]

theorem chainLookup_cons (d : Obj) (rest : List Obj) (k : String) :
    chainLookup (d :: rest) k = (chainLookup rest k).or (lookupFirst d k) := by
  rw [show chainLookup (d :: rest) k =
    rest.foldl (fun acc fs => (lookupFirst fs k).or acc) ((lookupFirst d k).or none)
    from rfl]
  rw [chainLookup_foldl_init, Option.or_none]

theorem lookupFirst_foldl_spread (ds : List Obj) (x : Obj) (k : String) :
    lookupFirst (ds.foldl spread x) k =
      (chainLookup ds k).or (lookupFirst x k) := by
  induction ds generalizing x with
  | nil => simp [chainLookup]
  | cons d rest ih =>
    simp only [List.foldl_cons]
    rw [ih (spread x d), lookupFirst_spread, chainLookup_cons, Option.or_assoc]

theorem keysOf_map_keyfix (x : Obj) (g : String × Value → Value) :
    keysOf (x.map (fun p => (p.1, g p))) = keysOf x := by
  simp [keysOf, List.map_map]

theorem spread_of_keys_subset (x d : Obj) (hsub : ∀ p ∈ d, p.1 ∈ keysOf x) :
    spread x d = x.map (fun p => (p.1, (lookupFirst d p.1).getD p.2)) := by
  unfold spread
  rw [show d.filter (fun p => (lookupFirst x p.1).isNone) = [] from ?_]
  · simp
  · rw [List.filter_eq_nil_iff]
    intro p hp
    have h2 := (lookupFirst_isSome_iff x p.1).2 (hsub p hp)
    simp only [Option.isNone_iff_eq_none]
    exact Option.isSome_iff_ne_none.1 h2

theorem map_pair_eta {α : Type} (l : List (String × α)) :
    l.map (fun p => (p.1, p.2)) = l := by
  simp

theorem foldl_spread_struct :
    ∀ (ds : List Obj) (x : Obj),
      (∀ d ∈ ds, ∀ p ∈ d, p.1 ∈ keysOf x) →
      ds.foldl spread x = x.map (fun p => (p.1, (chainLookup ds p.1).getD p.2)) := by
  intro ds
  induction ds with
  | nil =>
    intro x _
    simp [chainLookup]
  | cons d rest ih =>
    intro x hsub
    simp only [List.foldl_cons]
    rw [spread_of_keys_subset x d (hsub d (List.mem_cons_self _ _))]
    rw [ih (x.map (fun p => (p.1, (lookupFirst d p.1).getD p.2))) ?_]
    · rw [List.map_map]
      refine List.map_congr_left ?_
      intro p _
      simp only [Function.comp]
      rw [chainLookup_cons, or_getD]
    · intro d2 hd2 p hp
      rw [show keysOf (x.map (fun p => (p.1, (lookupFirst d p.1).getD p.2))) =
        keysOf x from keysOf_map_keyfix x _]
      exact hsub d2 (List.mem_cons.2 (Or.inr hd2)) p hp

theorem mem_keysOf_foldl_spread_base (ds : List Obj) (x : Obj) (k : String)
    (h : k ∈ keysOf x) : k ∈ keysOf (ds.foldl spread x) := by
  induction ds generalizing x with
  | nil => exact h
  | cons d rest ih =>
    simp only [List.foldl_cons]
    exact ih (spread x d) ((mem_keysOf_spread x d k).2 (Or.inl h))

theorem mem_keysOf_foldl_spread_elem :
    ∀ (ds : List Obj) (x d : Obj), d ∈ ds → ∀ k ∈ keysOf d,
      k ∈ keysOf (ds.foldl spread x) := by
  intro ds
  induction ds with
  | nil =>
    intro x d hd
    cases hd
  | cons d2 rest ih =>
    intro x d hd k h
    simp only [List.foldl_cons]
    rcases List.mem_cons.1 hd with rfl | hd2
    · exact mem_keysOf_foldl_spread_base rest (spread x d) k
        ((mem_keysOf_spread x d k).2 (Or.inr h))
    · exact ih (spread x d2) d hd2 k h

theorem nodup_keysOf_foldl_spread (ds : List Obj) (x : Obj)
    (hx : (keysOf x).Nodup) (hds : ∀ d ∈ ds, (keysOf d).Nodup) :
    (keysOf (ds.foldl spread x)).Nodup := by
  induction ds generalizing x with
  | nil => exact hx
  | cons d rest ih =>
    simp only [List.foldl_cons]
    exact ih (spread x d)
      (nodup_keysOf_spread hx (hds d (List.mem_cons_self _ _)))
      (fun d2 hd2 => hds d2 (List.mem_cons.2 (Or.inr hd2)))

theorem foldl_spread_idem (ds : List Obj) (x : Obj)
    (hx : (keysOf x).Nodup) (hds : ∀ d ∈ ds, (keysOf d).Nodup) :
    ds.foldl spread (ds.foldl spread x) = ds.foldl spread x := by
  have hndX : (keysOf (ds.foldl spread x)).Nodup :=
    nodup_keysOf_foldl_spread ds x hx hds
  have hsub : ∀ d ∈ ds, ∀ p ∈ d, p.1 ∈ keysOf (ds.foldl spread x) := by
    intro d hd p hp
    exact mem_keysOf_foldl_spread_elem ds x d hd p.1
      (List.mem_map.2 ⟨p, hp, rfl⟩)
  rw [foldl_spread_struct ds (ds.foldl spread x) hsub]
  have hpt : ∀ p ∈ ds.foldl spread x,
      (chainLookup ds p.1).getD p.2 = p.2 := by
    intro p hp
    cases hc : chainLookup ds p.1 with
    | none => simp
    | some w =>
      have h1 : lookupFirst (ds.foldl spread x) p.1 = some p.2 := by
        rw [show p = (p.1, p.2) from rfl] at hp
        exact lookupFirst_eq_of_mem_nodup hndX hp
      have h2 := lookupFirst_foldl_spread ds x p.1
      rw [h1, hc] at h2
      simp only [Option.or] at h2
      cases h2
      simp
  calc (ds.foldl spread x).map (fun p => (p.1, (chainLookup ds p.1).getD p.2))
      = (ds.foldl spread x).map (fun p => (p.1, p.2)) := by
        refine List.map_congr_left ?_
        intro p hp
        rw [hpt p hp]
    _ = ds.foldl spread x := map_pair_eta _

theorem applyChain_some (x : Obj) (ds : List Obj) :
    applyChain (some x) ds = some (ds.foldl spread x) := by
  induction ds generalizing x with
  | nil => rfl
  | cons d rest ih =>
    simp only [applyChain, List.foldl_cons] at ih ⊢
    rw [show (Option.getD (some x) [] : Obj) = x from rfl]
    exact ih (spread x d)

theorem applyChain_cons (s : Option Obj) (d : Obj) (ds : List Obj) :
    applyChain s (d :: ds) = some ((d :: ds).foldl spread (s.getD [])) := by
  simp only [applyChain, List.foldl_cons]
  rw [show (List.foldl (fun acc fs => some (spread (acc.getD []) fs))
      (some (spread (s.getD []) d)) ds : Option Obj) =
    applyChain (some (spread (s.getD []) d)) ds from rfl]
  rw [applyChain_some]

theorem applyChain_idem (s : Option Obj) (ds : List Obj)
    (hx : (keysOf (s.getD [])).Nodup) (hds : ∀ d ∈ ds, (keysOf d).Nodup) :
    applyChain (applyChain s ds) ds = applyChain s ds := by
  cases ds with
  | nil => rfl
  | cons d rest =>
    rw [applyChain_cons s d rest, applyChain_cons _ d rest]
    rw [show (Option.getD (some ((d :: rest).foldl spread (s.getD []))) [] : Obj) =
      (d :: rest).foldl spread (s.getD []) from rfl]
    rw [foldl_spread_idem (d :: rest) (s.getD []) hx hds]

theorem lookupFirst_setField (o : Obj) (k : String) (v : Value) (k2 : String) :
    lookupFirst (setField o k v) k2 =
      if k2 = k then some v else lookupFirst o k2 := by
  unfold setField
  rw [lookupFirst_spread]
  by_cases h : k2 = k
  · subst h
    simp [lookupFirst]
  · have hne : ¬ k = k2 := fun he => h he.symm
    simp [lookupFirst, hne, h]

theorem itemsOf_setField (o : Obj) (xs : List Value) :
    itemsOf (setField o "items" (.arr xs)) = xs := by
  unfold itemsOf
  rw [lookupFirst_setField, if_pos rfl]

theorem itemsOf_reconcile (base : Obj) (incoming : List Value) :
    itemsOf (reconcile base incoming) =
      (mergeIncoming (seedMap [] (itemsOf base)) incoming).map
        (fun p => Value.obj p.2) := by
  unfold reconcile
  exact itemsOf_setField _ _

theorem lookupFirst_reconcile_of_ne (base : Obj) (incoming : List Value)
    (k : String) (hk : k ≠ "items") :
    lookupFirst (reconcile base incoming) k = lookupFirst base k := by
  unfold reconcile
  rw [lookupFirst_setField, if_neg hk]

theorem spread_spread_same (a b : Obj) (hb : (keysOf b).Nodup) :
    spread (spread a b) b = spread a b := by
  have hsub : ∀ p ∈ b, p.1 ∈ keysOf (spread a b) := by
    intro p hp
    exact (mem_keysOf_spread a b p.1).2 (Or.inr (List.mem_map.2 ⟨p, hp, rfl⟩))
  rw [spread_of_keys_subset (spread a b) b hsub]
  have hpt : ∀ p ∈ spread a b, (lookupFirst b p.1).getD p.2 = p.2 := by
    intro p hp
    rcases List.mem_append.1 hp with hp1 | hp2
    · rcases List.mem_map.1 hp1 with ⟨q, _, rfl⟩
      cases hq : lookupFirst b q.1 with
      | none => simp [hq]
      | some w => simp [hq]
    · have hpb : p ∈ b := (List.mem_filter.1 hp2).1
      rw [show p = (p.1, p.2) from rfl] at hpb
      rw [lookupFirst_eq_of_mem_nodup hb hpb]
      rfl
  calc (spread a b).map (fun p => (p.1, (lookupFirst b p.1).getD p.2))
      = (spread a b).map (fun p => (p.1, p.2)) := by
        refine List.map_congr_left ?_
        intro p hp
        rw [hpt p hp]
    _ = spread a b := map_pair_eta _

theorem setField_setField_same (o : Obj) (k : String) (v : Value) :
    setField (setField o k v) k v = setField o k v := by
  unfold setField
  exact spread_spread_same o [(k, v)] (by simp [keysOf])

theorem setField_same (o : Obj) (k : String) (v : Value)
    (hnd : (keysOf o).Nodup) (hl : lookupFirst o k = some v) :
    setField o k v = o := by
  unfold setField
  have hsub : ∀ p ∈ ([(k, v)] : Obj), p.1 ∈ keysOf o := by
    intro p hp
    rcases List.mem_singleton.1 hp with rfl
    exact (lookupFirst_isSome_iff o k).1 (by simp [hl])
  rw [spread_of_keys_subset o [(k, v)] hsub]
  have hpt : ∀ p ∈ o, (lookupFirst [(k, v)] p.1).getD p.2 = p.2 := by
    intro p hp
    by_cases h : k = p.1
    · subst h
      rw [show p = (p.1, p.2) from rfl] at hp
      have := lookupFirst_eq_of_mem_nodup hnd hp
      rw [this] at hl
      cases hl
      simp [lookupFirst]
    · simp [lookupFirst, h]
  calc o.map (fun p => (p.1, (lookupFirst [(k, v)] p.1).getD p.2))
      = o.map (fun p => (p.1, p.2)) := by
        refine List.map_congr_left ?_
        intro p hp
        rw [hpt p hp]
    _ = o := map_pair_eta o

theorem adjustItems_of_none (n : String) (d : Int) (l : List Obj)
    (h : ∀ fs ∈ l, isNamed fs n = false) : adjustItems n d l = none := by
  induction l with
  | nil => rfl
  | cons fs rest ih =>
    have h1 := h fs (List.mem_cons_self _ _)
    simp only [adjustItems, h1, Bool.false_eq_true, if_false]
    rw [ih (fun g hg => h g (List.mem_cons.2 (Or.inr hg)))]

theorem adjustItems_found (n : String) (d : Int) (pre : List Obj) (it : Obj)
    (post : List Obj) (hpre : ∀ fs ∈ pre, isNamed fs n = false)
    (hit : isNamed it n = true) :
    adjustItems n d (pre ++ it :: post) =
      some (pre ++
        (if max 0 (currentQty it + d) = 0 then post
         else setField it "quantity" (.num (max 0 (currentQty it + d))) :: post)) := by
  induction pre with
  | nil =>
    simp only [List.nil_append, adjustItems, hit, if_true]
    by_cases h : max 0 (currentQty it + d) = 0
    · rw [if_pos h, if_pos h]
    · rw [if_neg h, if_neg h]
  | cons fs rest ih =>
    have h1 := hpre fs (List.mem_cons_self _ _)
    simp only [List.cons_append, adjustItems, h1, Bool.false_eq_true, if_false,
      List.append_eq]
    rw [ih (fun g hg => hpre g (List.mem_cons.2 (Or.inr hg)))]

theorem getLast?_mem_list {α : Type} :
    ∀ (l : List α) (a : α), l.getLast? = some a → a ∈ l := by
  intro l
  induction l with
  | nil =>
    intro a h
    cases h
  | cons b t ih =>
    intro a h
    rw [getLast?_cons_or] at h
    cases ht : t.getLast? with
    | some c =>
      rw [ht] at h
      simp only [Option.or] at h
      cases h
      exact List.mem_cons.2 (Or.inr (ih a ht))
    | none =>
      rw [ht] at h
      simp only [Option.or] at h
      cases h
      exact List.mem_cons_self _ _

theorem lookupFirst_mem {α : Type} :
    ∀ (l : List (String × α)) (k : String) (v : α),
      lookupFirst l k = some v → (k, v) ∈ l := by
  intro l
  induction l with
  | nil =>
    intro k v h
    cases h
  | cons p rest ih =>
    intro k v h
    obtain ⟨k1, v1⟩ := p
    by_cases hk : k1 = k
    · subst hk
      simp only [lookupFirst, if_pos rfl] at h
      cases h
      exact List.mem_cons_self _ _
    · simp only [lookupFirst, if_neg hk] at h
      exact List.mem_cons.2 (Or.inr (ih k v h))

theorem chainLookup_append (a b : List Obj) (k : String) :
    chainLookup (a ++ b) k = (chainLookup b k).or (chainLookup a k) := by
  unfold chainLookup
  rw [List.foldl_append, chainLookup_foldl_init]
  rfl

theorem mem_namedFields {vs : List Value} {n : String} {fs : Obj}
    (h : fs ∈ namedFields vs n) : ∃ v ∈ vs, fs = fieldsOf v := by
  unfold namedFields at h
  rcases List.mem_filterMap.1 h with ⟨v, hv, hfv⟩
  by_cases hn : nameOf v = some n
  · rw [if_pos hn] at hfv
    exact ⟨v, hv, (Option.some.inj hfv).symm⟩
  · rw [if_neg hn] at hfv
    cases hfv

theorem nameOf_isSome_obj {v : Value} (h : (nameOf v).isSome = true) :
    Value.obj (fieldsOf v) = v := by
  cases v with
  | obj fs => rfl
  | null => simp [nameOf] at h
  | bool b => simp [nameOf] at h
  | num q => simp [nameOf] at h
  | str s => simp [nameOf] at h
  | arr xs => simp [nameOf] at h

theorem map_fieldsOf_obj (l : List Obj) :
    (l.map Value.obj).map fieldsOf = l := by
  induction l with
  | nil => rfl
  | cons fs rest ih => simp [fieldsOf, ih]

theorem hasZeroQtyF_spread {a b : Obj} (ha : hasZeroQtyF a = false)
    (hb : hasZeroQtyF b = false) : hasZeroQtyF (spread a b) = false := by
  unfold hasZeroQtyF at ha hb ⊢
  rw [lookupFirst_spread]
  cases hlb : lookupFirst b "quantity" with
  | none =>
    rw [hlb] at hb
    simp only [Option.none_or]
    exact ha
  | some w =>
    rw [hlb] at hb
    simp only [Option.or]
    exact hb

theorem adjustItems_no_zero {n : String} {d : Int}
    {l l2 : List Obj} (hl : ∀ fs ∈ l, hasZeroQtyF fs = false)
    (h : adjustItems n d l = some l2) : ∀ fs ∈ l2, hasZeroQtyF fs = false := by
  induction l generalizing l2 with
  | nil => cases h
  | cons fs rest ih =>
    by_cases hnm : isNamed fs n = true
    · by_cases hq : max 0 (currentQty fs + d) = 0
      · simp only [adjustItems, hnm, if_pos, hq, if_true, Option.some.injEq] at h
        subst h
        exact fun g hg => hl g (List.mem_cons.2 (Or.inr hg))
      · simp only [adjustItems, hnm, if_pos, hq, Bool.false_eq_true, if_false,
          Option.some.injEq] at h
        subst h
        intro g hg
        rcases List.mem_cons.1 hg with rfl | hg2
        · unfold hasZeroQtyF setField
          rw [lookupFirst_spread]
          simp only [lookupFirst, if_pos rfl, Option.or]
          exact beq_eq_false_iff_ne.2 hq
        · exact hl g (List.mem_cons.2 (Or.inr hg2))
    · simp only [adjustItems, hnm, Bool.false_eq_true, if_false] at h
      cases hr : adjustItems n d rest with
      | none =>
        rw [hr] at h
        cases h
      | some rest2 =>
        rw [hr] at h
        cases h
        intro g hg
        rcases List.mem_cons.1 hg with rfl | hg2
        · exact hl g (List.mem_cons_self _ _)
        · exact ih (fun g2 hg2b => hl g2 (List.mem_cons.2 (Or.inr hg2b))) hr g hg2

theorem seedMap_no_zero {m : ItemMap} (items : List Value)
    (hm : ∀ p ∈ m, hasZeroQtyF p.2 = false)
    (hitems : ∀ v ∈ items, hasZeroQty v = false) :
    ∀ p ∈ seedMap m items, hasZeroQtyF p.2 = false := by
  induction items generalizing m with
  | nil => exact hm
  | cons item rest ih =>
    cases hn : nameOf item with
    | none =>
      simp only [seedMap, hn]
      exact ih hm (fun v hv => hitems v (List.mem_cons.2 (Or.inr hv)))
    | some n =>
      simp only [seedMap, hn]
      refine ih ?_ (fun v hv => hitems v (List.mem_cons.2 (Or.inr hv)))
      intro p hp
      rcases mem_setM hp with h | h
      · exact hm p h
      · rw [h]
        exact hitems item (List.mem_cons_self _ _)

theorem mergeIncoming_no_zero {m : ItemMap} (ds : List Value)
    (hm : ∀ p ∈ m, hasZeroQtyF p.2 = false)
    (hds : ∀ v ∈ ds, hasZeroQty v = false) :
    ∀ p ∈ mergeIncoming m ds, hasZeroQtyF p.2 = false := by
  induction ds generalizing m with
  | nil => exact hm
  | cons item rest ih =>
    cases hn : nameOf item with
    | none =>
      simp only [mergeIncoming, hn]
      exact ih hm (fun v hv => hds v (List.mem_cons.2 (Or.inr hv)))
    | some n =>
      simp only [mergeIncoming, hn]
      refine ih ?_ (fun v hv => hds v (List.mem_cons.2 (Or.inr hv)))
      intro p hp
      rcases mem_setM hp with h | h
      · exact hm p h
      · rw [h]
        refine hasZeroQtyF_spread ?_ (hds item (List.mem_cons_self _ _))
        cases hg : getM m n with
        | none => rfl
        | some old =>
          simp only [hg, Option.getD_some]
          exact hm (n, old) (lookupFirst_mem m n old hg)

theorem seedMap_values_id :
    ∀ (bs : List Value) (acc : ItemMap),
      (∀ v ∈ bs, (nameOf v).isSome = true) → (namesOf bs).Nodup →
      (∀ n ∈ namesOf bs, n ∉ keysOf acc) →
      (seedMap acc bs).map (fun p => Value.obj p.2) =
        acc.map (fun p => Value.obj p.2) ++ bs := by
  intro bs
  induction bs with
  | nil =>
    intro acc _ _ _
    simp [seedMap]
  | cons v rest ih =>
    intro acc hnamed hnd hdisj
    have hsome := hnamed v (List.mem_cons_self _ _)
    cases hn : nameOf v with
    | none => rw [hn] at hsome; cases hsome
    | some n =>
      have hns : namesOf (v :: rest) = n :: namesOf rest := by
        simp [namesOf, List.filterMap_cons, hn]
      rw [hns] at hnd hdisj
      simp only [seedMap, hn]
      rw [setM_notin (fieldsOf v) (hdisj n (List.mem_cons_self _ _))]
      rw [ih (acc ++ [(n, fieldsOf v)])
        (fun w hw => hnamed w (List.mem_cons.2 (Or.inr hw)))
        (List.nodup_cons.1 hnd).2 ?_]
      · rw [List.map_append]
        simp only [List.map_cons, List.map_nil]
        rw [nameOf_isSome_obj hsome]
        simp
      · intro n2 hn2
        simp only [keysOf, List.map_append, List.mem_append, List.map_cons,
          List.map_nil, List.mem_singleton]
        push_neg
        refine ⟨?_, ?_⟩
        · intro hmem
          exact hdisj n2 (List.mem_cons.2 (Or.inr hn2)) (by simpa [keysOf] using hmem)
        · intro he
          subst he
          exact (List.nodup_cons.1 hnd).1 hn2

theorem processDelta_lastRef (st : HostState) (v : Value) :
    (processDelta st (some v)).1.lastRef = serialize v := by
  simp only [processDelta]
  by_cases h : serialize v = st.lastRef
  · rw [if_pos h]
    exact h.symm
  · rw [if_neg h]

/-! Concrete example documents, shared by the witnesses below. -/

/-- Example base cart: `{cartId:"c1", items:[{name:"milk",quantity:2}]}`. -/
def milkCart : Obj :=
  [("cartId", Value.str "c1"),
   ("items", Value.arr [Value.obj [("name", Value.str "milk"), ("quantity", Value.num 2)]])]

/-- Example delta items: `[{name:"milk",quantity:5},{name:"bread",quantity:1}]`. -/
def milkDelta : List Value :=
  [Value.obj [("name", Value.str "milk"), ("quantity", Value.num 5)],
   Value.obj [("name", Value.str "bread"), ("quantity", Value.num 1)]]

/-- Example cart with one apple: `{items:[{name:"apple",quantity:1}]}`. -/
def appleCart : Obj :=
  [("items", Value.arr [Value.obj [("name", Value.str "apple"), ("quantity", Value.num 1)]])]

/-! The claims. -/

/-- C1.  Merge union: for every base cart `B` and every delta sequence `D`
whose items all carry non-empty pairwise-distinct names, the items of
`reconcile B D` all carry a name, no name appears twice, and a (non-empty)
name appears among them exactly when it appears among the names of `B`'s
items or of `D`'s items. -/
theorem reconcile_union (B : Obj) (D : List Value)
    (hnames : ∀ v ∈ D, (nameOf v).isSome = true)
    (hnd : (namesOf D).Nodup) :
    (namesOf (itemsOf (reconcile B D))).Nodup ∧
    (∀ v ∈ itemsOf (reconcile B D), (nameOf v).isSome = true) ∧
    (∀ n : String, n ∈ namesOf (itemsOf (reconcile B D)) ↔
      n ∈ namesOf (itemsOf B) ∨ n ∈ namesOf D) := by
  have hinv : MapInv (mergeIncoming (seedMap [] (itemsOf B)) D) :=
    mapInv_mergeIncoming D (mapInv_seedMap (itemsOf B) mapInv_nil)
  refine ⟨?_, ?_, ?_⟩
  · rw [itemsOf_reconcile, namesOf_mapValues hinv.2]
    exact hinv.1
  · intro v hv
    rw [itemsOf_reconcile] at hv
    rcases List.mem_map.1 hv with ⟨p, hp, rfl⟩
    obtain ⟨hk, hl⟩ := hinv.2 p hp
    rw [nameOf_obj_of_lookup hl hk]
    rfl
  · intro n
    rw [itemsOf_reconcile, namesOf_mapValues hinv.2,
      keysOf_mergeIncoming, keysOf_seedMap, mem_addNew, mem_addNew]
    rw [show keysOf ([] : ItemMap) = [] from rfl]
    simp

/-- C1 witness: the merge union property at the milk/bread example. -/
theorem reconcile_union_witness :
    (namesOf (itemsOf (reconcile milkCart milkDelta))).Nodup ∧
    ("bread" ∈ namesOf (itemsOf (reconcile milkCart milkDelta)) ↔
      "bread" ∈ namesOf (itemsOf milkCart) ∨ "bread" ∈ namesOf milkDelta) :=
  ⟨(reconcile_union milkCart milkDelta (by decide) (by decide)).1,
   (reconcile_union milkCart milkDelta (by decide) (by decide)).2.2 "bread"⟩

/-- C2.  Field precedence: when `B` has exactly one item named `n` (fields
`bfs`) and `D` has exactly one item named `n` (fields `dfs`), the single
item named `n` in `reconcile B D` is the field-wise merge `spread bfs dfs`,
whose value at every key is the incoming value when the incoming item
carries the key and the base value otherwise. -/
theorem reconcile_field_precedence (B : Obj) (D : List Value) (n : String)
    (bfs dfs : Obj)
    (hB : namedFields (itemsOf B) n = [bfs])
    (hD : namedFields D n = [dfs]) :
    (itemsOf (reconcile B D)).filter (fun v => decide (nameOf v = some n)) =
      [Value.obj (spread bfs dfs)] ∧
    (∀ k : String, lookupFirst (spread bfs dfs) k =
      (lookupFirst dfs k).or (lookupFirst bfs k)) := by
  have hinv : MapInv (mergeIncoming (seedMap [] (itemsOf B)) D) :=
    mapInv_mergeIncoming D (mapInv_seedMap (itemsOf B) mapInv_nil)
  have hget : getM (mergeIncoming (seedMap [] (itemsOf B)) D) n =
      some (spread bfs dfs) := by
    rw [getM_mergeIncoming, getM_seedMap, hB, hD]
    rfl
  refine ⟨?_, ?_⟩
  · rw [itemsOf_reconcile]
    exact filter_mapValues_named hinv.1 hinv.2 hget
  · intro k
    exact lookupFirst_spread bfs dfs k

/-- C2 witness: the spec example — base `{name:"x",qty:1,color:"red"}`
merged with incoming `{name:"x",qty:3}` yields `{name:"x",qty:3,color:"red"}`. -/
theorem reconcile_field_precedence_witness :
    (itemsOf (reconcile
        [("items", Value.arr [Value.obj
          [("name", Value.str "x"), ("qty", Value.num 1), ("color", Value.str "red")]])]
        [Value.obj [("name", Value.str "x"), ("qty", Value.num 3)]])).filter
      (fun v => decide (nameOf v = some "x")) =
      [Value.obj [("name", Value.str "x"), ("qty", Value.num 3),
        ("color", Value.str "red")]] := by
  have h := reconcile_field_precedence
    [("items", Value.arr [Value.obj
      [("name", Value.str "x"), ("qty", Value.num 1), ("color", Value.str "red")]])]
    [Value.obj [("name", Value.str "x"), ("qty", Value.num 3)]]
    "x"
    [("name", Value.str "x"), ("qty", Value.num 1), ("color", Value.str "red")]
    [("name", Value.str "x"), ("qty", Value.num 3)]
    rfl rfl
  rw [h.1]
  rfl

/-- C9.  Merge frame and ordering: every top-level field of `B` other than
`items` is unchanged by `reconcile B D`, and the names of the output items
are the first-occurrence order of the names encountered while seeding with
the base items and then folding the delta items — base names first in their
original order, new delta names appended in encounter order. -/
theorem reconcile_frame_and_order (B : Obj) (D : List Value) :
    (∀ k : String, k ≠ "items" →
      lookupFirst (reconcile B D) k = lookupFirst B k) ∧
    namesOf (itemsOf (reconcile B D)) =
      addNew [] (namesOf (itemsOf B) ++ namesOf D) := by
  refine ⟨?_, ?_⟩
  · intro k hk
    exact lookupFirst_reconcile_of_ne B D k hk
  · have hinv : MapInv (mergeIncoming (seedMap [] (itemsOf B)) D) :=
      mapInv_mergeIncoming D (mapInv_seedMap (itemsOf B) mapInv_nil)
    rw [itemsOf_reconcile, namesOf_mapValues hinv.2,
      keysOf_mergeIncoming, keysOf_seedMap, addNew_append]
    rfl

/-- C9 witness: at the milk/bread example, the pass-through `cartId`
field survives the merge and the output names are base-first. -/
theorem reconcile_frame_and_order_witness :
    lookupFirst (reconcile milkCart milkDelta) "cartId" = some (Value.str "c1") ∧
    namesOf (itemsOf (reconcile milkCart milkDelta)) = ["milk", "bread"] := by
  refine ⟨?_, ?_⟩
  · rw [(reconcile_frame_and_order milkCart milkDelta).1 "cartId" (by decide)]
    rfl
  · rw [(reconcile_frame_and_order milkCart milkDelta).2]
    rfl

/-- C8.  Malformed-input degradation: an incoming item with no usable name
(here `{quantity:5}`) is dropped, so merging it equals merging the empty
delta; merging the empty delta into a well-formed cart (duplicate-free
top-level keys, an `items` array whose items all carry non-empty
pairwise-distinct names) returns the cart unchanged; and a non-array
`items` field of the payload extracts to the empty sequence. -/
theorem reconcile_malformed (B : Obj) (bs : List Value)
    (hkeys : (keysOf B).Nodup)
    (hitems : lookupFirst B "items" = some (.arr bs))
    (hnamed : ∀ v ∈ bs, (nameOf v).isSome = true)
    (hnd : (namesOf bs).Nodup) :
    reconcile B [Value.obj [("quantity", Value.num 5)]] = reconcile B [] ∧
    reconcile B [] = B ∧
    (∀ w : Value, (∀ xs : List Value, w ≠ Value.arr xs) →
      extractItems (Value.obj [("items", w)]) = []) := by
  refine ⟨rfl, ?_, ?_⟩
  · have hbs : itemsOf B = bs := by
      unfold itemsOf
      rw [hitems]
    simp only [reconcile, hbs]
    rw [show mergeIncoming (seedMap [] bs) [] = seedMap [] bs from rfl]
    have hvals := seedMap_values_id bs [] hnamed hnd (by simp [keysOf])
    simp only [List.map_nil, List.nil_append] at hvals
    rw [hvals]
    exact setField_same B "items" (.arr bs) hkeys hitems
  · intro w hw
    cases w with
    | arr xs => exact absurd rfl (hw xs)
    | null => rfl
    | bool b => rfl
    | num q => rfl
    | str s2 => rfl
    | obj fs => rfl

/-- C8 witness: the degradation equalities at the milk cart. -/
theorem reconcile_malformed_witness :
    reconcile milkCart [Value.obj [("quantity", Value.num 5)]] =
      reconcile milkCart [] ∧
    reconcile milkCart [] = milkCart ∧
    extractItems (Value.obj [("items", Value.str "nope")]) = [] := by
  have h := reconcile_malformed milkCart
    [Value.obj [("name", Value.str "milk"), ("quantity", Value.num 2)]]
    (by decide) rfl (by decide) (by decide)
  exact ⟨h.1, h.2.1, h.2.2 (Value.str "nope") (fun xs he => by cases he)⟩

/-- C10.  Duplicate incoming names accumulate: when `B` holds at most one
item named `n` and `D` holds two or more, the output holds exactly one item
named `n`, and its value at every key is the left-to-right chain lookup
over the base fields (if any) followed by the incoming field lists in
sequence order — the last occurrence carrying a key wins, keys it omits
are retained from earlier occurrences. -/
theorem reconcile_duplicate_names_accumulate (B : Obj) (D : List Value)
    (n : String)
    (hB : (namedFields (itemsOf B) n).length ≤ 1)
    (hD : 2 ≤ (namedFields D n).length) :
    ∃ F : Obj,
      (itemsOf (reconcile B D)).filter (fun v => decide (nameOf v = some n)) =
        [Value.obj F] ∧
      (∀ k : String, lookupFirst F k =
        chainLookup (namedFields (itemsOf B) n ++ namedFields D n) k) := by
  have hinv : MapInv (mergeIncoming (seedMap [] (itemsOf B)) D) :=
    mapInv_mergeIncoming D (mapInv_seedMap (itemsOf B) mapInv_nil)
  have hgen : ∀ (L : List Obj), L.length ≤ 1 → ∀ k : String,
      lookupFirst ((L.getLast?).getD []) k = chainLookup L k := by
    intro L hL k
    rcases L with _ | ⟨b1, _ | ⟨b2, br⟩⟩
    · rfl
    · rw [chainLookup_cons]
      simp [chainLookup]
    · simp at hL
  cases hDn : namedFields D n with
  | nil =>
    rw [hDn] at hD
    simp at hD
  | cons d rest =>
    have hgetSeed : getM (seedMap [] (itemsOf B)) n =
        (namedFields (itemsOf B) n).getLast? := by
      rw [getM_seedMap]
      rw [show getM ([] : ItemMap) n = none from rfl, Option.or_none]
    have hget : getM (mergeIncoming (seedMap [] (itemsOf B)) D) n =
        some ((d :: rest).foldl spread
          (((namedFields (itemsOf B) n).getLast?).getD [])) := by
      rw [getM_mergeIncoming, hgetSeed, hDn, applyChain_cons]
    refine ⟨(d :: rest).foldl spread
      (((namedFields (itemsOf B) n).getLast?).getD []), ?_, ?_⟩
    · rw [itemsOf_reconcile]
      exact filter_mapValues_named hinv.1 hinv.2 hget
    · intro k
      rw [lookupFirst_foldl_spread, chainLookup_append]
      rw [hgen (namedFields (itemsOf B) n) hB k]

/-- C10 witness: base `{name:"x",qty:1,color:"red"}` with three incoming
items named `x` — `{a:1}`, `{b:2}`, `{a:9}` — accumulates to
`{name:"x",qty:1,color:"red",a:9,b:2}`. -/
theorem reconcile_duplicate_names_accumulate_witness :
    ∃ F : Obj,
      (itemsOf (reconcile
          [("items", Value.arr [Value.obj [("name", Value.str "x"),
            ("qty", Value.num 1), ("color", Value.str "red")]])]
          [Value.obj [("name", Value.str "x"), ("a", Value.num 1)],
           Value.obj [("name", Value.str "x"), ("b", Value.num 2)],
           Value.obj [("name", Value.str "x"), ("a", Value.num 9)]])).filter
        (fun v => decide (nameOf v = some "x")) = [Value.obj F] ∧
      lookupFirst F "a" = some (Value.num 9) ∧
      lookupFirst F "color" = some (Value.str "red") := by
  obtain ⟨F, hF, hlook⟩ := reconcile_duplicate_names_accumulate
    [("items", Value.arr [Value.obj [("name", Value.str "x"),
      ("qty", Value.num 1), ("color", Value.str "red")]])]
    [Value.obj [("name", Value.str "x"), ("a", Value.num 1)],
     Value.obj [("name", Value.str "x"), ("b", Value.num 2)],
     Value.obj [("name", Value.str "x"), ("a", Value.num 9)]]
    "x" (by decide) (by decide)
  refine ⟨F, hF, ?_, ?_⟩
  · rw [hlook "a"]
    rfl
  · rw [hlook "color"]
    rfl

/-- C5 counterexample: the base cart `{items:[]}` holds no zero-quantity
item, yet reconciling the delta `[{name:"a",quantity:0}]` into it stores an
item whose `quantity` is `0` — the merge never deletes zero-quantity items,
so the claimed invariant fails for `reconcile`. -/
theorem no_zero_qty_at_rest_counterexample :
    (∀ v ∈ itemsOf [("items", Value.arr [])], hasZeroQty v = false) ∧
    ∃ v ∈ itemsOf (reconcile [("items", Value.arr [])]
        [Value.obj [("name", Value.str "a"), ("quantity", Value.num 0)]]),
      hasZeroQty v = true := by
  refine ⟨?_, ?_⟩
  · intro v hv
    simp [itemsOf, lookupFirst] at hv
  · refine ⟨Value.obj [("name", Value.str "a"), ("quantity", Value.num 0)], ?_, rfl⟩
    rw [show itemsOf (reconcile [("items", Value.arr [])]
        [Value.obj [("name", Value.str "a"), ("quantity", Value.num 0)]]) =
      [Value.obj [("name", Value.str "a"), ("quantity", Value.num 0)]] from rfl]
    exact List.mem_cons_self _ _

/-- C5 (amended).  No zero quantity at rest: `adjustQuantity` never stores
a zero quantity (it deletes the item instead), and `reconcile` stores none
provided no incoming item itself carries a stored `quantity` of `0`. -/
theorem no_zero_qty_at_rest_amended :
    (∀ (C : Obj) (n : String) (d : Int),
      (∀ v ∈ itemsOf C, hasZeroQty v = false) →
      ∀ v ∈ itemsOf (adjustQuantity n d C), hasZeroQty v = false) ∧
    (∀ (B : Obj) (D : List Value),
      (∀ v ∈ itemsOf B, hasZeroQty v = false) →
      (∀ v ∈ D, hasZeroQty v = false) →
      ∀ v ∈ itemsOf (reconcile B D), hasZeroQty v = false) := by
  refine ⟨?_, ?_⟩
  · intro C n d hC
    unfold adjustQuantity
    by_cases hg : n = "" ∨ d = 0
    · rw [if_pos hg]
      exact hC
    · rw [if_neg hg]
      cases hadj : adjustItems n d ((itemsOf C).map fieldsOf) with
      | none => exact hC
      | some items2 =>
        intro v hv
        rw [itemsOf_setField] at hv
        rcases List.mem_map.1 hv with ⟨fs, hfs, rfl⟩
        rw [show hasZeroQty (Value.obj fs) = hasZeroQtyF fs from rfl]
        refine adjustItems_no_zero ?_ hadj fs hfs
        intro g hg2
        rcases List.mem_map.1 hg2 with ⟨w, hw, rfl⟩
        exact hC w hw
  · intro B D hB hD v hv
    rw [itemsOf_reconcile] at hv
    rcases List.mem_map.1 hv with ⟨p, hp, rfl⟩
    rw [show hasZeroQty (Value.obj p.2) = hasZeroQtyF p.2 from rfl]
    refine mergeIncoming_no_zero D ?_ hD p hp
    refine seedMap_no_zero (itemsOf B) ?_ hB
    intro q hq
    cases hq

/-- C5 (amended) witness: the invariant at the apple adjustment and at the
milk/bread merge. -/
theorem no_zero_qty_at_rest_amended_witness :
    (∀ v ∈ itemsOf (adjustQuantity "apple" (-5) appleCart), hasZeroQty v = false) ∧
    (∀ v ∈ itemsOf (reconcile milkCart milkDelta), hasZeroQty v = false) :=
  ⟨no_zero_qty_at_rest_amended.1 appleCart "apple" (-5) (by decide),
   no_zero_qty_at_rest_amended.2 milkCart milkDelta (by decide) (by decide)⟩

/-- Example tool-output payload `{items: milkDelta}`. -/
def milkPayload : Value := Value.obj [("items", Value.arr milkDelta)]

/-- C3.  Idempotence: applying the same incoming items again, with the
result of the first merge as the new base, returns the first result
unchanged.  (The two hypotheses only exclude field lists with repeated
keys, which no real JS object can have.) -/
theorem reconcile_idempotent (B : Obj) (D : List Value)
    (hb : ∀ v ∈ itemsOf B, (keysOf (fieldsOf v)).Nodup)
    (hd : ∀ v ∈ D, (keysOf (fieldsOf v)).Nodup) :
    reconcile (reconcile B D) D = reconcile B D := by
  have hA : itemsOf (reconcile B D) =
      (mergeIncoming (seedMap [] (itemsOf B)) D).map (fun p => Value.obj p.2) :=
    itemsOf_reconcile B D
  have hinv1 : MapInv (mergeIncoming (seedMap [] (itemsOf B)) D) :=
    mapInv_mergeIncoming D (mapInv_seedMap (itemsOf B) mapInv_nil)
  have hC : mergeIncoming (mergeIncoming (seedMap [] (itemsOf B)) D) D =
      mergeIncoming (seedMap [] (itemsOf B)) D := by
    refine itemMap_ext ?_ (mapInv_mergeIncoming D hinv1).1 ?_
    · rw [keysOf_mergeIncoming]
      refine addNew_of_all_mem _ _ ?_
      intro n hn
      rw [keysOf_mergeIncoming, mem_addNew]
      exact Or.inr hn
    · intro n
      rw [getM_mergeIncoming, getM_mergeIncoming]
      refine applyChain_idem _ _ ?_ ?_
      · cases hs : getM (seedMap [] (itemsOf B)) n with
        | none => simp [keysOf]
        | some bfs =>
          rw [getM_seedMap] at hs
          rw [show getM ([] : ItemMap) n = none from rfl, Option.or_none] at hs
          rcases mem_namedFields (getLast?_mem_list _ _ hs) with ⟨v, hv, rfl⟩
          simpa using hb v hv
      · intro dfs hdfs
        rcases mem_namedFields hdfs with ⟨v, hv, rfl⟩
        exact hd v hv
  have hstep : reconcile (reconcile B D) D =
      setField (reconcile B D) "items"
        (.arr ((mergeIncoming (seedMap [] (itemsOf (reconcile B D))) D).map
          (fun p => Value.obj p.2))) := rfl
  rw [hstep, hA, seedMap_mapValues hinv1, hC]
  have hstep2 : reconcile B D =
      setField B "items"
        (.arr ((mergeIncoming (seedMap [] (itemsOf B)) D).map
          (fun p => Value.obj p.2))) := rfl
  rw [hstep2, setField_setField_same]

/-- C3 witness: idempotence at the milk/bread example. -/
theorem reconcile_idempotent_witness :
    reconcile (reconcile milkCart milkDelta) milkDelta =
      reconcile milkCart milkDelta :=
  reconcile_idempotent milkCart milkDelta (by decide) (by decide)

/-- C4.  Quantity adjustment: empty name, zero delta and absent item are
no-ops returning the cart unchanged (no item is created); otherwise the
first item named `n` is removed when `max 0 (quantity + d) = 0` and is
otherwise replaced in place by the same fields with `quantity` set to
`quantity + d`, all other items keeping their relative order (the cart is
given by its item field lists `objs`, so that the JS shallow copies are the
identity). -/
theorem adjustQuantity_spec (C : Obj) (objs : List Obj)
    (hitems : itemsOf C = objs.map Value.obj) (n : String) (d : Int) :
    (n = "" → adjustQuantity n d C = C) ∧
    (d = 0 → adjustQuantity n d C = C) ∧
    ((∀ fs ∈ objs, isNamed fs n = false) → adjustQuantity n d C = C) ∧
    (∀ pre it post, objs = pre ++ it :: post →
      (∀ fs ∈ pre, isNamed fs n = false) → isNamed it n = true →
      n ≠ "" → d ≠ 0 →
      (currentQty it + d ≤ 0 →
        adjustQuantity n d C =
          setField C "items" (.arr ((pre ++ post).map Value.obj))) ∧
      (0 < currentQty it + d →
        adjustQuantity n d C =
          setField C "items" (.arr ((pre ++
            setField it "quantity" (.num (currentQty it + d)) :: post).map
              Value.obj)))) := by
  have hmap : (itemsOf C).map fieldsOf = objs := by
    rw [hitems, map_fieldsOf_obj]
  refine ⟨?_, ?_, ?_, ?_⟩
  · intro h
    unfold adjustQuantity
    rw [if_pos (Or.inl h)]
  · intro h
    unfold adjustQuantity
    rw [if_pos (Or.inr h)]
  · intro h
    unfold adjustQuantity
    by_cases hg : n = "" ∨ d = 0
    · rw [if_pos hg]
    · rw [if_neg hg, hmap, adjustItems_of_none n d objs h]
  · intro pre it post hsplit hpre hit hn hd
    have hguard : ¬ (n = "" ∨ d = 0) := by
      rintro (h | h)
      exacts [hn h, hd h]
    constructor
    · intro hle
      have hmax : max 0 (currentQty it + d) = 0 := by omega
      unfold adjustQuantity
      rw [if_neg hguard, hmap, hsplit,
        adjustItems_found n d pre it post hpre hit, if_pos hmax]
    · intro hlt
      have hmax0 : ¬ max 0 (currentQty it + d) = 0 := by omega
      have hmaxeq : max 0 (currentQty it + d) = currentQty it + d := by omega
      unfold adjustQuantity
      rw [if_neg hguard, hmap, hsplit,
        adjustItems_found n d pre it post hpre hit, if_neg hmax0, hmaxeq]

/-- C4 witness: on `{items:[{name:"apple",quantity:1}]}`, a `-5` adjustment
deletes the apple, a `+2` adjustment sets its quantity to `3`, and
adjusting the absent `"banana"` changes nothing. -/
theorem adjustQuantity_spec_witness :
    adjustQuantity "apple" (-5) appleCart = setField appleCart "items" (.arr []) ∧
    adjustQuantity "apple" 2 appleCart =
      setField appleCart "items"
        (.arr [Value.obj (setField
          [("name", Value.str "apple"), ("quantity", Value.num 1)]
          "quantity" (.num 3))]) ∧
    adjustQuantity "banana" 1 appleCart = appleCart := by
  have h1 := (adjustQuantity_spec appleCart
    [[("name", Value.str "apple"), ("quantity", Value.num 1)]] rfl "apple" (-5)).2.2.2
    [] [("name", Value.str "apple"), ("quantity", Value.num 1)] [] rfl
    (by intro fs h; cases h) rfl (by decide) (by decide)
  have h2 := (adjustQuantity_spec appleCart
    [[("name", Value.str "apple"), ("quantity", Value.num 1)]] rfl "apple" 2).2.2.2
    [] [("name", Value.str "apple"), ("quantity", Value.num 1)] [] rfl
    (by intro fs h; cases h) rfl (by decide) (by decide)
  have h3 := (adjustQuantity_spec appleCart
    [[("name", Value.str "apple"), ("quantity", Value.num 1)]] rfl "banana" 1).2.2.1
    (by decide)
  exact ⟨h1.1 (by decide), h2.2 (by decide), h3⟩

/-- C6.  Change-detection suppression: delivering the same payload value a
second time in a row performs no merge and issues no write (the state is
returned unchanged with the write flag `false`); a subsequent payload whose
serialization differs from the remembered fingerprint does merge against
the current cart and writes, remembering the new fingerprint. -/
theorem change_detection_suppression (st : HostState) (v w : Value) :
    processDelta ((processDelta st (some v)).1) (some v) =
      ((processDelta st (some v)).1, false) ∧
    (serialize w ≠ (processDelta st (some v)).1.lastRef →
      (processDelta ((processDelta st (some v)).1) (some w)).2 = true ∧
      (processDelta ((processDelta st (some v)).1) (some w)).1 =
        { lastRef := serialize w,
          cart := reconcile (processDelta st (some v)).1.cart
            (extractItems w) }) := by
  have hl : serialize v = (processDelta st (some v)).1.lastRef :=
    (processDelta_lastRef st v).symm
  constructor
  · set st1 := (processDelta st (some v)).1 with hst1
    simp only [processDelta]
    rw [if_pos hl]
  · intro hw
    set st1 := (processDelta st (some v)).1 with hst1
    simp only [processDelta]
    rw [if_neg hw]
    exact ⟨rfl, rfl⟩

/-- C6 witness: the milk payload delivered twice is suppressed the second
time; a subsequent different payload (`null` serializes differently) would
write. -/
theorem change_detection_suppression_witness :
    processDelta ((processDelta ⟨initialLastRef, milkCart⟩ (some milkPayload)).1)
      (some milkPayload) =
      ((processDelta ⟨initialLastRef, milkCart⟩ (some milkPayload)).1, false) ∧
    (processDelta ((processDelta ⟨initialLastRef, milkCart⟩ (some milkPayload)).1)
      (some (Value.bool true))).2 = true := by
  have h := change_detection_suppression ⟨initialLastRef, milkCart⟩ milkPayload
    (Value.bool true)
  exact ⟨h.1, (h.2 (by decide)).1⟩

/-- C7.  Fresh-base merging: after any event history (local quantity edits
included), a genuinely new payload is merged using the cart value current
at that moment — the one produced by the whole history — the new
fingerprint is remembered in the same step, and the result is written
through. -/
theorem fresh_base_merge (st : HostState) (es : List Event) (v : Value)
    (hnew : serialize v ≠ (runEvents st es).lastRef) :
    runEvents st (es ++ [Event.delta (some v)]) =
      { lastRef := serialize v,
        cart := reconcile (runEvents st es).cart (extractItems v) } ∧
    (processDelta (runEvents st es) (some v)).2 = true := by
  have hrun : runEvents st (es ++ [Event.delta (some v)]) =
      (processDelta (runEvents st es) (some v)).1 := by
    unfold runEvents
    rw [List.foldl_append]
    rfl
  constructor
  · rw [hrun]
    set st1 := runEvents st es with hst1
    simp only [processDelta]
    rw [if_neg hnew]
  · set st1 := runEvents st es with hst1
    simp only [processDelta]
    rw [if_neg hnew]

/-- C7 witness: a local milk decrement followed by the milk payload merges
against the locally edited cart and remembers the payload fingerprint. -/
theorem fresh_base_merge_witness :
    runEvents ⟨initialLastRef, milkCart⟩
      ([Event.userAdjust "milk" (-1)] ++ [Event.delta (some milkPayload)]) =
      { lastRef := serialize milkPayload,
        cart := reconcile
          (runEvents ⟨initialLastRef, milkCart⟩ [Event.userAdjust "milk" (-1)]).cart
          (extractItems milkPayload) } ∧
    (processDelta (runEvents ⟨initialLastRef, milkCart⟩
      [Event.userAdjust "milk" (-1)]) (some milkPayload)).2 = true :=
  fresh_base_merge ⟨initialLastRef, milkCart⟩ [Event.userAdjust "milk" (-1)]
    milkPayload (by decide)

end ShoppingCart
